import Mathlib

/-!
# Verification of the classical-cipher core (`Encryption/encryption.py`)

Shallow embedding of the cipher module. Messages are lists of character
ordinals (`List Int`, Python `ord`/`chr`); each Python cipher method becomes a
Lean function with the same name in a namespace named after its class.
Python's `%` on integers agrees with Lean's `Int.emod` (result has the sign of
the modulus), so `%` below is the faithful translation.

The helpers `extended_gcd` and `modular_inverse` are imported by the source
from `crypto_utils`, which is not part of the repository snapshot; they are
modelled from the spec (see their doc comments).
-/

/-- `Cipher.alphabet_size` from the source: 95 printable characters. -/
def alphabet_size : Int := 95

/-- `Cipher.alphabet_start` from the source: ordinal 32 (space). -/
def alphabet_start : Int := 32

/-- Modelled from the spec: `extended_gcd(a, b) -> (g, x, y)` returns
`gcd(a,b) = g = a·x + b·y` (the `crypto_utils` module is not in the snapshot).
Realised with Mathlib's extended-gcd coefficients so that the Bézout identity
`Int.gcd_eq_gcd_ab` is available. -/
def extended_gcd (a b : Nat) : Nat × Int × Int :=
  (Nat.gcd a b, Int.gcdA a b, Int.gcdB a b)

/-- Modelled from the spec: `modular_inverse(a, m) -> x` with `a·x ≡ 1 (mod m)`,
normalised into `[0, m)`, failing (`NoInverseError`) when `gcd(a, m) ≠ 1`.
Failure is `none`. -/
def modular_inverse (a : Int) (m : Nat) : Option Int :=
  if Int.gcd a m = 1 then some (Int.gcdA a m % m) else none

/-- Python's `random.randint(lo, hi)` draws an integer in the *inclusive*
range `[lo, hi]`; the pseudo-random source is made explicit as the draw `r`,
mapped onto the inclusive range. Every value of `[lo, hi]` is reachable. -/
def randint (lo hi r : Nat) : Nat :=
  lo + r % (hi + 1 - lo)

namespace Caesar

/-- `Caesar.generate_key`: `random.randint(0, self.alphabet_size)`. -/
def generate_key (r : Nat) : Nat :=
  randint 0 95 r

/-- Per-character body of `Caesar.encode`:
`chr((ord(char) + key - alphabet_start) % alphabet_size + alphabet_start)`. -/
def encodeChar (key c : Int) : Int :=
  (c + key - alphabet_start) % alphabet_size + alphabet_start

/-- `Caesar.encode`: encode every character of the message. -/
def encode (key : Int) (msg : List Int) : List Int :=
  msg.map (encodeChar key)

/-- `Caesar.decode`: `decoding_key = alphabet_size - key`, then encode. -/
def decode (key : Int) (msg : List Int) : List Int :=
  encode (alphabet_size - key) msg

/-- `Caesar.verify` (inherited `Cipher.verify`):
`msg == decode(key, encode(key, msg))`. -/
def verify (key : Int) (msg : List Int) : Bool :=
  msg == decode key (encode key msg)

end Caesar

namespace Multiplication

/-- `Multiplication.generate_key`: draw `randint(0, 95)` repeatedly until
`extended_gcd(key, 95)[0] == 1`; the stream of draws is the explicit list,
`none` meaning the supplied draws were exhausted. -/
def generate_key : List Nat → Option Nat
  | [] => none
  | r :: rs =>
    let key := randint 0 95 r
    if (extended_gcd key 95).1 = 1 then some key else generate_key rs

/-- Per-character body of `Multiplication.encode`:
`chr((ord(char) * key - alphabet_start) % alphabet_size + alphabet_start)`.
Note the raw ordinal is multiplied, and only then is `alphabet_start`
subtracted. -/
def encodeChar (key c : Int) : Int :=
  (c * key - alphabet_start) % alphabet_size + alphabet_start

/-- `Multiplication.encode`: encode every character of the message. -/
def encode (key : Int) (msg : List Int) : List Int :=
  msg.map (encodeChar key)

/-- `Multiplication.decode`: `mod_inverse = modular_inverse(key, 95)`, then
encode with the inverse; the `NoInverseError` of `modular_inverse` propagates
as `none`. -/
def decode (key : Int) (msg : List Int) : Option (List Int) :=
  (modular_inverse key 95).map (fun inv => encode inv msg)

/-- `Multiplication.verify` (inherited `Cipher.verify`); `none` when `decode`
raises. -/
def verify (key : Int) (msg : List Int) : Option Bool :=
  (decode key (encode key msg)).map (fun d => msg == d)

end Multiplication

/-- The per-character formula asserted by the spec sentence
"`encode_char = (ordinal · key) mod 95`" with characters "treated as integers
in `[0,95)` via `ordinal - 32`": index `ord(c) - 32`, multiplied by the key,
reduced mod 95, shifted back. Stated for comparison with
`Multiplication.encodeChar`, which the source actually computes. -/
def specMultiplicativeEncodeChar (key c : Int) : Int :=
  (c - alphabet_start) * key % alphabet_size + alphabet_start

namespace Affine

/-- `Affine.encode`: Caesar-encode (second key component) the
Multiplication-encoding (first key component). -/
def encode (key : Int × Int) (msg : List Int) : List Int :=
  Caesar.encode key.2 (Multiplication.encode key.1 msg)

/-- `Affine.decode`: undo the Caesar layer, then the Multiplication layer;
`Multiplication.decode`'s failure propagates. -/
def decode (key : Int × Int) (msg : List Int) : Option (List Int) :=
  Multiplication.decode key.1 (Caesar.decode key.2 msg)

/-- `Affine.verify` (inherited `Cipher.verify`); `none` when `decode` raises. -/
def verify (key : Int × Int) (msg : List Int) : Option Bool :=
  (decode key (encode key msg)).map (fun d => msg == d)

end Affine

namespace Unbreakable

/-- Body of `Unbreakable.encode`'s loop: character `i` is shifted by
`key[i % len(key)]`. Indexing `getD` is only exercised at `i % key.length`,
a valid position whenever the key is nonempty. -/
def encodeAux (key : List Int) (i : Nat) : List Int → List Int
  | [] => []
  | c :: cs =>
    ((c + key.getD (i % key.length) 0 - alphabet_start) % alphabet_size + alphabet_start)
      :: encodeAux key (i + 1) cs

/-- `Unbreakable.encode`. Python raises `ZeroDivisionError` on `i % len(key)`
exactly when the key is empty and there is at least one character to encode;
that failure is `none`. -/
def encode (key : List Int) (msg : List Int) : Option (List Int) :=
  if key = [] ∧ msg ≠ [] then none else some (encodeAux key 0 msg)

/-- `Unbreakable.decode`: `decoding_key[j] = (alphabet_size - key[j]) %
alphabet_size`, then encode with the decoding key. -/
def decode (key : List Int) (msg : List Int) : Option (List Int) :=
  encode (key.map (fun v => (alphabet_size - v) % alphabet_size)) msg

/-- `Unbreakable.verify` (inherited `Cipher.verify`); `none` when encode or
decode raises. -/
def verify (key : List Int) (msg : List Int) : Option Bool :=
  ((encode key msg).bind (decode key)).map (fun d => msg == d)

end Unbreakable

/-- Character class of the regex `[0-9a-zA-Z]` used by
`Hacker.count_english_words`. -/
def isAlnum (c : Int) : Bool :=
  (48 ≤ c && c ≤ 57) || (65 ≤ c && c ≤ 90) || (97 ≤ c && c ≤ 122)

/-- Python `str.lower` on a single ASCII ordinal (the alphabet is ASCII). -/
def lowerChar (c : Int) : Int :=
  if 65 ≤ c && c ≤ 90 then c + 32 else c

/-- `re.sub("[^0-9a-zA-Z]+", " ", msg)` followed by `str.split()` keeps
exactly the maximal runs of alphanumeric characters; this computes those
runs (`acc` is the current run, reversed). -/
def alnumWords (acc : List Int) : List Int → List (List Int)
  | [] => if acc = [] then [] else [acc.reverse]
  | c :: cs =>
    if isAlnum c then alnumWords (c :: acc) cs
    else if acc = [] then alnumWords [] cs
    else acc.reverse :: alnumWords [] cs

namespace Hacker

/-- `Hacker.count_english_words`: strip to alphanumeric words, lower-case
each, count the ones present in the corpus `words`. -/
def count_english_words (words : List (List Int)) (decoded_msg : List Int) : Nat :=
  ((alnumWords [] decoded_msg).map (fun w => w.map lowerChar)).countP
    (fun w => words.contains w)

/-- The mutable fields of `Hacker` that `check_key` updates:
`most_likely_msg` and `max_count` (initialised to `""` and `0`). -/
structure State where
  most_likely_msg : List Int
  max_count : Nat
deriving Repr, DecidableEq

/-- `Hacker.__init__`'s initial tracker: `most_likely_msg = ""`,
`max_count = 0`. -/
def init : State := ⟨[], 0⟩

/-- `Hacker.check_key`: decode the stored ciphertext with the candidate key
(`operate_cipher` is `cipher.decode`), score it, and replace the retained
best only on a strictly greater score. Generic in the key type `κ` and the
family's decode function, exactly as `operate_cipher` dispatches. -/
def check_key {κ : Type} (words : List (List Int)) (encoded_msg : List Int)
    (decodeFn : κ → List Int → List Int) (st : State) (key : κ) : State :=
  let decoded_msg := decodeFn key encoded_msg
  let count := count_english_words words decoded_msg
  if count > st.max_count then ⟨decoded_msg, count⟩ else st

/-- `Hacker.brute_force` in the Caesar branch: try every key in
`range(0, alphabet_size)` in ascending order, return
`(most_likely_msg, max_count)`. -/
def brute_force_caesar (words : List (List Int)) (encoded_msg : List Int) :
    List Int × Nat :=
  let final := (List.range 95).foldl
    (check_key words encoded_msg (fun (k : Nat) m => Caesar.decode (k : Int) m)) init
  (final.most_likely_msg, final.max_count)

end Hacker

/-! ## Helper lemmas -/

/-- A map that fixes every member of a list is the identity on it. -/
lemma map_id_of_mem {f : Int → Int} :
    ∀ l : List Int, (∀ c ∈ l, f c = c) → l.map f = l := by
  intro l h
  induction l with
  | nil => rfl
  | cons c cs ih =>
    simp only [List.map_cons, List.cons.injEq]
    exact ⟨h c (List.mem_cons_self c cs), ih fun x hx => h x (List.mem_cons_of_mem c hx)⟩

/-- The common shape `(t - 32) % 95 + 32` of every classical encode lands in
the alphabet range. -/
lemma emod_shift_range (t : Int) :
    32 ≤ (t - 32) % 95 + 32 ∧ (t - 32) % 95 + 32 ≤ 126 := by omega

/-! ## C1: the multiplicative per-character formula -/

/-- C1 counterexample: with (valid) key 2 and character `'a'` (ordinal 97,
inside `[32,126]`), the source computes ordinal 99 while the claimed formula
`((ord(c) - 32) * key) mod 95 + 32` gives 67 — the claim is false as stated. -/
theorem C1_counterexample :
    Multiplication.encodeChar 2 97 = 99 ∧ specMultiplicativeEncodeChar 2 97 = 67 ∧
    Multiplication.encodeChar 2 97 ≠ specMultiplicativeEncodeChar 2 97 := by
  decide

/-- C1 amended: Multiplicative encode maps `c` to the character of ordinal
`(ord(c) * key - 32) mod 95 + 32` — the raw ordinal enters the product — which
always lies in `[32,126]` and equals the claimed index-based product shifted by
the extra term `32·(key - 1)` modulo 95 (so the two formulas agree exactly when
`key ≡ 1 (mod 95)`). -/
theorem C1_amended_thm (key c : Int) :
    32 ≤ Multiplication.encodeChar key c ∧ Multiplication.encodeChar key c ≤ 126 ∧
    Multiplication.encodeChar key c = ((c - 32) * key + 32 * (key - 1)) % 95 + 32 := by
  unfold Multiplication.encodeChar alphabet_size alphabet_start
  have hring : c * key - 32 = (c - 32) * key + 32 * (key - 1) := by ring
  refine ⟨(emod_shift_range (c * key)).1, (emod_shift_range (c * key)).2, by rw [hring]⟩

/-! ## C4: range of `Caesar.generate_key` -/

/-- C4 counterexample: `random.randint(0, 95)` is inclusive at both ends, so
the draw mapping to 95 makes `generate_key` return 95, which is not `< 95`. -/
theorem C4_counterexample :
    Caesar.generate_key 95 = 95 ∧ ¬ Caesar.generate_key 95 < 95 := by decide

/-- C4 amended: `Caesar.generate_key` always returns an integer in the
*inclusive* range `[0, 95]` — at most the alphabet size, but 95 itself is a
possible return value. -/
theorem C4_amended_thm (r : Nat) : Caesar.generate_key r ≤ 95 := by
  unfold Caesar.generate_key randint
  omega

/-! ## C9: the concrete Shift scenario -/

/-- C9: Shift key 3 encodes "abc" (97,98,99) to "def" (100,101,102), and
decoding "def" with key 3 gives back "abc". -/
theorem C9_shift_scenario :
    Caesar.encode 3 [97, 98, 99] = [100, 101, 102] ∧
    Caesar.decode 3 [100, 101, 102] = [97, 98, 99] := by decide

/-! ## Round-trip helper lemmas -/

/-- One character through Caesar encode then decode (`decoding_key = 95 - key`)
comes back unchanged when it lies in the alphabet. -/
lemma caesar_char_roundtrip (k x : Int) (hx1 : 32 ≤ x) (hx2 : x ≤ 126) :
    Caesar.encodeChar (alphabet_size - k) (Caesar.encodeChar k x) = x := by
  unfold Caesar.encodeChar alphabet_size alphabet_start
  omega

/-- For `gcd(k, 95) = 1`, `modular_inverse` succeeds and its result is a
multiplicative inverse of `k` modulo 95 (Bézout identity). -/
lemma modular_inverse_spec (k : Int) (h : Int.gcd k 95 = 1) :
    modular_inverse k 95 = some (Int.gcdA k 95 % 95) ∧
    (k * (Int.gcdA k 95 % 95)) % 95 = 1 := by
  have hb := Int.gcd_eq_gcd_ab k 95
  rw [h] at hb
  push_cast at hb
  constructor
  · unfold modular_inverse
    norm_num [h]
  · set A := Int.gcdA k 95 with hA
    set B := Int.gcdB k 95 with hB
    have hq : A % 95 = A - 95 * (A / 95) := by
      have h2 := Int.ediv_add_emod A 95
      linarith
    have hkey : k * (A % 95) = 1 + 95 * (-B - k * (A / 95)) := by
      rw [hq]
      linear_combination -hb
    obtain ⟨t, ht⟩ : ∃ t : Int, -B - k * (A / 95) = t := ⟨_, rfl⟩
    rw [ht] at hkey
    rw [hkey]
    omega

/-- One character through Multiplication encode with `k` and then with any
inverse of `k` mod 95 comes back unchanged when it lies in the alphabet. -/
lemma mult_char_roundtrip (k inv x : Int) (hinv : (k * inv) % 95 = 1)
    (hx1 : 32 ≤ x) (hx2 : x ≤ 126) :
    Multiplication.encodeChar inv (Multiplication.encodeChar k x) = x := by
  unfold Multiplication.encodeChar alphabet_size alphabet_start
  have h2 := Int.ediv_add_emod (k * inv) 95
  rw [hinv] at h2
  have hq : (x * k - 32) % 95 = x * k - 32 - 95 * ((x * k - 32) / 95) := by
    have h3 := Int.ediv_add_emod (x * k - 32) 95
    linarith
  rw [hq]
  have hkey : (x * k - 32 - 95 * ((x * k - 32) / 95) + 32) * inv - 32
      = x - 32 + 95 * (x * (k * inv / 95) - ((x * k - 32) / 95) * inv) := by
    have hm : k * inv = 1 + 95 * (k * inv / 95) := by linarith
    linear_combination x * hm
  rw [hkey]
  obtain ⟨t, ht⟩ : ∃ t : Int, x * (k * inv / 95) - ((x * k - 32) / 95) * inv = t := ⟨_, rfl⟩
  rw [ht]
  omega

/-- `getD` on a mapped list at a valid index is the image of `getD`. -/
lemma getD_map_of_lt (key : List Int) (f : Int → Int) (j : Nat) (h : j < key.length) :
    (key.map f).getD j 0 = f (key.getD j 0) := by
  rw [List.getD_eq_getElem _ _ (by simpa using h), List.getD_eq_getElem _ _ h, List.getElem_map]

/-- `Caesar.decode` inverts `Caesar.encode` on alphabet-valid messages. -/
lemma caesar_roundtrip (k : Int) (msg : List Int) (h : ∀ c ∈ msg, 32 ≤ c ∧ c ≤ 126) :
    Caesar.decode k (Caesar.encode k msg) = msg := by
  unfold Caesar.decode Caesar.encode
  rw [List.map_map]
  exact map_id_of_mem msg fun c hc => caesar_char_roundtrip k c (h c hc).1 (h c hc).2

/-- `Multiplication.decode` inverts `Multiplication.encode` for coprime keys
on alphabet-valid messages. -/
lemma mult_roundtrip (k : Int) (msg : List Int) (hgcd : Int.gcd k 95 = 1)
    (h : ∀ c ∈ msg, 32 ≤ c ∧ c ≤ 126) :
    Multiplication.decode k (Multiplication.encode k msg) = some msg := by
  obtain ⟨heq, hmul⟩ := modular_inverse_spec k hgcd
  unfold Multiplication.decode
  rw [heq, Option.map_some']
  congr 1
  unfold Multiplication.encode
  rw [List.map_map]
  exact map_id_of_mem msg fun c hc => mult_char_roundtrip k _ c hmul (h c hc).1 (h c hc).2

/-- Every character of a `Multiplication.encode` output is in the alphabet. -/
lemma mult_encode_mem_range (k : Int) (msg : List Int) :
    ∀ c ∈ Multiplication.encode k msg, 32 ≤ c ∧ c ≤ 126 := by
  intro c hc
  unfold Multiplication.encode at hc
  obtain ⟨a, _, rfl⟩ := List.mem_map.mp hc
  unfold Multiplication.encodeChar alphabet_size alphabet_start
  exact emod_shift_range (a * k)

/-- `Affine.decode` inverts `Affine.encode` when the multiplicative component
is coprime with 95, on alphabet-valid messages. -/
lemma affine_roundtrip (k0 k1 : Int) (msg : List Int) (hgcd : Int.gcd k0 95 = 1)
    (h : ∀ c ∈ msg, 32 ≤ c ∧ c ≤ 126) :
    Affine.decode (k0, k1) (Affine.encode (k0, k1) msg) = some msg := by
  unfold Affine.decode Affine.encode
  rw [caesar_roundtrip k1 _ (mult_encode_mem_range k0 msg)]
  exact mult_roundtrip k0 msg hgcd h

/-- Position-wise round trip of the keyword cipher's loop body, for any
starting index, provided the key is nonempty. -/
lemma unb_aux_roundtrip (key : List Int) (hk : key ≠ []) :
    ∀ (i : Nat) (msg : List Int), (∀ c ∈ msg, 32 ≤ c ∧ c ≤ 126) →
      Unbreakable.encodeAux (key.map (fun v => (alphabet_size - v) % alphabet_size)) i
        (Unbreakable.encodeAux key i msg) = msg := by
  intro i msg
  induction msg generalizing i with
  | nil => intro _; rfl
  | cons c cs ih =>
    intro h
    have hlen : 0 < key.length := List.length_pos.mpr hk
    simp only [Unbreakable.encodeAux, List.length_map, List.cons.injEq]
    refine ⟨?_, ih (i + 1) fun x hx => h x (List.mem_cons_of_mem c hx)⟩
    rw [getD_map_of_lt key _ _ (Nat.mod_lt i hlen)]
    have hc := h c (List.mem_cons_self c cs)
    unfold alphabet_size alphabet_start
    omega

/-- `Unbreakable.decode` inverts `Unbreakable.encode` for nonempty keys on
alphabet-valid messages. -/
lemma unbreakable_roundtrip (key : List Int) (msg : List Int) (hk : key ≠ [])
    (h : ∀ c ∈ msg, 32 ≤ c ∧ c ≤ 126) :
    (Unbreakable.encode key msg).bind (Unbreakable.decode key) = some msg := by
  unfold Unbreakable.encode Unbreakable.decode
  rw [if_neg (by simp [hk])]
  simp only [Option.some_bind]
  unfold Unbreakable.encode
  rw [if_neg (by simp [hk])]
  exact congrArg some (unb_aux_roundtrip key hk 0 msg h)

/-! ## C2: decode ∘ encode = id for all classical variants -/

/-- C2: for every classical cipher variant and every valid key of that
variant — Shift: integer in `[0,95)`; Multiplicative: coprime with 95;
Affine: such a pair; Keyword: nonempty key — decoding an encoding of an
alphabet-valid message returns the message. -/
theorem C2_roundtrip (msg : List Int) (hmsg : ∀ c ∈ msg, 32 ≤ c ∧ c ≤ 126) :
    (∀ k : Int, 0 ≤ k → k < 95 → Caesar.decode k (Caesar.encode k msg) = msg) ∧
    (∀ k : Int, Int.gcd k 95 = 1 →
      Multiplication.decode k (Multiplication.encode k msg) = some msg) ∧
    (∀ k0 k1 : Int, Int.gcd k0 95 = 1 → 0 ≤ k1 → k1 < 95 →
      Affine.decode (k0, k1) (Affine.encode (k0, k1) msg) = some msg) ∧
    (∀ key : List Int, key ≠ [] →
      (Unbreakable.encode key msg).bind (Unbreakable.decode key) = some msg) :=
  ⟨fun k _ _ => caesar_roundtrip k msg hmsg,
   fun k hk => mult_roundtrip k msg hk hmsg,
   fun k0 k1 h0 _ _ => affine_roundtrip k0 k1 msg h0 hmsg,
   fun key hk => unbreakable_roundtrip key msg hk hmsg⟩

/-- C2 witness: the round trip at concrete keys and the one-character
message "a" for each of the four variants. -/
theorem C2_roundtrip_witness :
    Caesar.decode 3 (Caesar.encode 3 [97]) = [97] ∧
    Multiplication.decode 2 (Multiplication.encode 2 [97]) = some [97] ∧
    Affine.decode (2, 3) (Affine.encode (2, 3) [97]) = some [97] ∧
    (Unbreakable.encode [107] [97]).bind (Unbreakable.decode [107]) = some [97] := by
  have h := C2_roundtrip [97] (by decide)
  exact ⟨h.1 3 (by decide) (by decide), h.2.1 2 (by decide),
         h.2.2.1 2 3 (by decide) (by decide) (by decide), h.2.2.2 [107] (by decide)⟩

/-! ## C3: monotonicity of the retained best score -/

/-- One `check_key` step never decreases `max_count`. -/
lemma check_key_step_mono {κ : Type} (words : List (List Int)) (encoded_msg : List Int)
    (decodeFn : κ → List Int → List Int) (st : Hacker.State) (k : κ) :
    st.max_count ≤ (Hacker.check_key words encoded_msg decodeFn st k).max_count := by
  simp only [Hacker.check_key]
  split
  · next hgt => exact Nat.le_of_lt hgt
  · exact Nat.le_refl _

/-- C3: over any sequence of candidate keys, the retained `max_count` never
decreases; and a candidate whose score does not *strictly* exceed the retained
maximum leaves the state unchanged, so among equal-scoring candidates the one
tested first in search order is the one retained. -/
theorem C3_check_key_monotone {κ : Type} (words : List (List Int)) (encoded_msg : List Int)
    (decodeFn : κ → List Int → List Int) (st : Hacker.State) (keys : List κ) (key : κ) :
    st.max_count ≤ (keys.foldl (Hacker.check_key words encoded_msg decodeFn) st).max_count ∧
    (Hacker.count_english_words words (decodeFn key encoded_msg) ≤ st.max_count →
      Hacker.check_key words encoded_msg decodeFn st key = st) := by
  constructor
  · induction keys generalizing st with
    | nil => exact Nat.le_refl _
    | cons a as ih =>
      simp only [List.foldl_cons]
      exact Nat.le_trans (check_key_step_mono words encoded_msg decodeFn st a) (ih _)
  · intro h
    simp only [Hacker.check_key]
    rw [if_neg (Nat.not_lt.mpr h)]

/-- C3 witness: the monotonicity and the tie rule at a concrete state, corpus
and key list (Caesar decode, keys 0 and 1, empty ciphertext). -/
theorem C3_witness :
    (Hacker.init.max_count ≤
      (([0, 1].foldl
        (Hacker.check_key [] [] (fun (k : Nat) m => Caesar.decode (k : Int) m))
        Hacker.init).max_count)) ∧
    Hacker.check_key [] [] (fun (k : Nat) m => Caesar.decode (k : Int) m) Hacker.init 0 =
      Hacker.init :=
  ⟨(C3_check_key_monotone [] [] (fun (k : Nat) m => Caesar.decode (k : Int) m)
      Hacker.init [0, 1] 0).1,
   (C3_check_key_monotone [] [] (fun (k : Nat) m => Caesar.decode (k : Int) m)
      Hacker.init [0, 1] 0).2 (by decide)⟩

/-! ## C7: the all-zero-scores sentinel -/

/-- C7: when every candidate key scores zero English words, the tracker stays
at its initial sentinel, so `brute_force` returns the empty message with
count 0; stated generically over the key type and decode function (covering
every branch of `brute_force`) and for the Caesar branch concretely. -/
theorem C7_sentinel (words : List (List Int)) (encoded_msg : List Int) :
    (∀ (κ : Type) (decodeFn : κ → List Int → List Int) (keys : List κ),
      (∀ k ∈ keys, Hacker.count_english_words words (decodeFn k encoded_msg) = 0) →
      keys.foldl (Hacker.check_key words encoded_msg decodeFn) Hacker.init = Hacker.init) ∧
    ((∀ k ∈ List.range 95,
        Hacker.count_english_words words (Caesar.decode (k : Int) encoded_msg) = 0) →
      Hacker.brute_force_caesar words encoded_msg = ([], 0)) := by
  have main : ∀ (κ : Type) (decodeFn : κ → List Int → List Int) (keys : List κ),
      (∀ k ∈ keys, Hacker.count_english_words words (decodeFn k encoded_msg) = 0) →
      keys.foldl (Hacker.check_key words encoded_msg decodeFn) Hacker.init = Hacker.init := by
    intro κ decodeFn keys h
    induction keys with
    | nil => rfl
    | cons a as ih =>
      have hstep : Hacker.check_key words encoded_msg decodeFn Hacker.init a = Hacker.init := by
        simp only [Hacker.check_key, h a (List.mem_cons_self a as)]
        rfl
      simp only [List.foldl_cons, hstep]
      exact ih fun k hk => h k (List.mem_cons_of_mem a hk)
  refine ⟨main, fun h => ?_⟩
  unfold Hacker.brute_force_caesar
  rw [main Nat (fun (k : Nat) m => Caesar.decode (k : Int) m) (List.range 95) h]
  rfl

/-- C7 witness: with an empty corpus every score is zero, and the Caesar
brute force returns the sentinel `("", 0)`. -/
theorem C7_sentinel_witness :
    ([0].foldl (Hacker.check_key [] [] (fun (k : Nat) m => Caesar.decode (k : Int) m))
      Hacker.init = Hacker.init) ∧
    Hacker.brute_force_caesar [] [] = ([], 0) :=
  ⟨(C7_sentinel [] []).1 Nat (fun (k : Nat) m => Caesar.decode (k : Int) m) [0] (by decide),
   (C7_sentinel [] []).2 (by decide)⟩

/-! ## C8: `Multiplication.generate_key` only returns coprime keys -/

/-- C8: whatever the random draws, if `Multiplication.generate_key` returns a
key at all, that key is coprime with 95. -/
theorem C8_generate_key_coprime (rs : List Nat) (k : Nat)
    (h : Multiplication.generate_key rs = some k) : Nat.gcd k 95 = 1 := by
  induction rs with
  | nil => simp [Multiplication.generate_key] at h
  | cons r rs ih =>
    simp only [Multiplication.generate_key] at h
    split at h
    · next hg =>
      obtain rfl : randint 0 95 r = k := Option.some.inj h
      exact hg
    · exact ih h

/-- C8 witness: the draw mapping to 2 is accepted and 2 is coprime with 95. -/
theorem C8_witness : Multiplication.generate_key [2] = some 2 ∧ Nat.gcd 2 95 = 1 :=
  ⟨by decide, C8_generate_key_coprime [2] 2 (by decide)⟩

/-! ## C5: no input validation in encode/decode -/

/-- C5 counterexample: ordinal 10 (newline) is outside the alphabet
`[32,126]`, yet `Caesar.encode` silently processes it into the in-range
ordinal 108 instead of raising any error. -/
theorem C5_counterexample :
    ¬ (32 ≤ (10 : Int)) ∧ Caesar.encode 3 [10] = [108] := by decide

/-- C5 amended: encode performs no validation — every integer ordinal,
in-range or not, is silently mapped into the alphabet by the mod-95
reduction; the only typed failure is the `NoInverseError` that
`Multiplication.decode` (and through it Affine decode and verify) propagates
from `modular_inverse` on a key not coprime with 95. -/
theorem C5_amended_thm (key c : Int) (k : Int) (msg : List Int)
    (h : Int.gcd k 95 ≠ 1) :
    (32 ≤ Caesar.encodeChar key c ∧ Caesar.encodeChar key c ≤ 126) ∧
    Multiplication.decode k msg = none := by
  constructor
  · unfold Caesar.encodeChar alphabet_size alphabet_start
    exact emod_shift_range (c + key)
  · unfold Multiplication.decode modular_inverse
    rw [if_neg (by simpa using h)]
    rfl

/-- C5 amended witness: at key 3 and the out-of-range ordinal 10, and at the
non-coprime multiplicative key 5. -/
theorem C5_amended_witness :
    ((32 ≤ Caesar.encodeChar 3 10 ∧ Caesar.encodeChar 3 10 ≤ 126) ∧
      Multiplication.decode 5 [97] = none) :=
  C5_amended_thm 3 10 5 [97] (by decide)

/-! ## C6: when `verify` can fail -/

/-- C6 counterexample: `Multiplication.verify` with key 5 (not coprime with
95) propagates the `NoInverseError` raised inside `decode` instead of
returning a boolean — `verify` is not exception-free for every key value. -/
theorem C6_counterexample : Multiplication.verify 5 [97] = none := by decide

/-- C6 amended: `verify` returns a boolean (never raises) whenever the key is
valid for its variant: `Caesar.verify` is total by construction, and
Multiplication/Affine/Unbreakable `verify` succeed for a multiplicative key
coprime with 95 resp. a nonempty keyword key; with a non-coprime
multiplicative key the modular-inverse failure propagates out of `verify`. -/
theorem C6_amended_thm (k k1 : Int) (keyl : List Int) (msg : List Int)
    (h1 : Int.gcd k 95 = 1) (h2 : keyl ≠ []) :
    (Multiplication.verify k msg).isSome ∧
    (Affine.verify (k, k1) msg).isSome ∧
    (Unbreakable.verify keyl msg).isSome := by
  obtain ⟨heq, -⟩ := modular_inverse_spec k h1
  refine ⟨?_, ?_, ?_⟩
  · unfold Multiplication.verify Multiplication.decode
    rw [heq]
    rfl
  · unfold Affine.verify Affine.decode Multiplication.decode
    rw [heq]
    rfl
  · unfold Unbreakable.verify Unbreakable.encode Unbreakable.decode
    rw [if_neg (by simp [h2]), Option.some_bind]
    unfold Unbreakable.encode
    rw [if_neg (by simp [h2])]
    rfl

/-- C6 amended witness: key 2 (coprime with 95), affine pair (2,3), keyword
key `"k"` (`[107]`), message `"a"`. -/
theorem C6_amended_witness :
    (Multiplication.verify 2 [97]).isSome ∧
    (Affine.verify (2, 3) [97]).isSome ∧
    (Unbreakable.verify [107] [97]).isSome :=
  C6_amended_thm 2 3 [107] [97] (by decide) (by decide)

/-! ## C10: encode output always lands in the alphabet -/

/-- Every character of a `Caesar.encode` output is in the alphabet, for any
key and any input ordinals. -/
lemma caesar_encode_mem_range (k : Int) (msg : List Int) :
    ∀ c ∈ Caesar.encode k msg, 32 ≤ c ∧ c ≤ 126 := by
  intro c hc
  unfold Caesar.encode at hc
  obtain ⟨a, _, rfl⟩ := List.mem_map.mp hc
  unfold Caesar.encodeChar alphabet_size alphabet_start
  exact emod_shift_range (a + k)

/-- The keyword loop body preserves length. -/
lemma unb_aux_length (key : List Int) :
    ∀ (i : Nat) (msg : List Int), (Unbreakable.encodeAux key i msg).length = msg.length := by
  intro i msg
  induction msg generalizing i with
  | nil => rfl
  | cons c cs ih => simp only [Unbreakable.encodeAux, List.length_cons, ih]

/-- Every character the keyword loop body emits is in the alphabet, for any
key values and any input ordinals. -/
lemma unb_aux_mem_range (key : List Int) :
    ∀ (i : Nat) (msg : List Int), ∀ c ∈ Unbreakable.encodeAux key i msg, 32 ≤ c ∧ c ≤ 126 := by
  intro i msg
  induction msg generalizing i with
  | nil => intro c hc; cases hc
  | cons a as ih =>
    intro c hc
    simp only [Unbreakable.encodeAux, List.mem_cons] at hc
    rcases hc with hc | hc
    · subst hc
      unfold alphabet_size alphabet_start
      omega
    · exact ih (i + 1) c hc

/-- C10: for Shift, Multiplicative and Keyword encode, with any integer key
(any nonempty integer key list for Keyword) and any input ordinals — also
ones outside `[32,126]` — every output character lies in `[32,126]` and the
output has the input's length. -/
theorem C10_encode_range (key : Int) (keyl : List Int) (msg : List Int) (hk : keyl ≠ []) :
    ((Caesar.encode key msg).length = msg.length ∧
      ∀ c ∈ Caesar.encode key msg, 32 ≤ c ∧ c ≤ 126) ∧
    ((Multiplication.encode key msg).length = msg.length ∧
      ∀ c ∈ Multiplication.encode key msg, 32 ≤ c ∧ c ≤ 126) ∧
    (∃ out, Unbreakable.encode keyl msg = some out ∧ out.length = msg.length ∧
      ∀ c ∈ out, 32 ≤ c ∧ c ≤ 126) := by
  refine ⟨⟨List.length_map msg _, caesar_encode_mem_range key msg⟩,
          ⟨List.length_map msg _, mult_encode_mem_range key msg⟩,
          ⟨Unbreakable.encodeAux keyl 0 msg, ?_, unb_aux_length keyl 0 msg,
            unb_aux_mem_range keyl 0 msg⟩⟩
  unfold Unbreakable.encode
  rw [if_neg (by simp [hk])]

/-- C10 witness: key 1000 and keyword key `[13]` on the message `[1, 200]`,
both of whose ordinals are outside the alphabet. -/
theorem C10_encode_range_witness :
    ((Caesar.encode 1000 [1, 200]).length = ([1, 200] : List Int).length ∧
      ∀ c ∈ Caesar.encode 1000 [1, 200], 32 ≤ c ∧ c ≤ 126) ∧
    ((Multiplication.encode 1000 [1, 200]).length = ([1, 200] : List Int).length ∧
      ∀ c ∈ Multiplication.encode 1000 [1, 200], 32 ≤ c ∧ c ≤ 126) ∧
    (∃ out, Unbreakable.encode [13] [1, 200] = some out ∧
      out.length = ([1, 200] : List Int).length ∧ ∀ c ∈ out, 32 ≤ c ∧ c ≤ 126) :=
  C10_encode_range 1000 [13] [1, 200] (by decide)
